import Mathlib

/-!
Verification of the `stemmer_uk` Ukrainian stemmer (`src/lib.rs`).

The Rust code works on UTF-8 byte buffers, but every pattern it uses is
compiled in pcre2 UTF mode, so all match offsets reported by the engine fall
on character boundaries.  The embedding therefore represents every buffer as
a `List Char`; byte positions and byte lengths are recovered through an
explicit UTF-8 encoder (`utf8EncodeChar`, `utf8EncodeList`) wherever a claim
speaks about bytes.  The patterns are compiled with the pcre2 crate's
defaults, so `PCRE2_DOLLAR_ENDONLY` is unset: the `$` anchor accepts the end
of the subject and also the position immediately before a newline that ends
the subject (`dollarAlt`); the anchor is zero-width, so a match never covers
that final newline.
-/

namespace StemmerUk

/-- The vowel class `[аеиоуюяіїє]` shared by `RVRE` and `DERIVATIONAL`. -/
def vowels : List Char := ['а', 'е', 'и', 'о', 'у', 'ю', 'я', 'і', 'ї', 'є']

/-- Membership in the vowel class. -/
def isVowel (c : Char) : Bool := vowels.contains c

/-- Models Rust's `char::to_lowercase` restricted to ASCII and the Cyrillic
rows this stemmer can meet; identity elsewhere.  (The Rust code calls the
standard library; on these code points simple one-to-one lowercasing is what
it performs.) -/
def toLowerChar (c : Char) : Char :=
  if 'A' ≤ c && c ≤ 'Z' then Char.ofNat (c.toNat + 32)
  else if 'А' ≤ c && c ≤ 'Я' then Char.ofNat (c.toNat + 32)
  else if c == 'Ё' then 'ё'
  else if c == 'І' then 'і'
  else if c == 'Ї' then 'ї'
  else if c == 'Є' then 'є'
  else if c == 'Ґ' then 'ґ'
  else c

/-- `ukstemmer_search_preprocess`: lowercase, drop `'`, fold `ё → е` and
`ъ → ї`.  Each Rust `replace` call maps a single character to a single
character (or to nothing), hence charwise `map`/`filter`. -/
def preprocessL (w : List Char) : List Char :=
  (((w.map toLowerChar).filter fun c => c != '\'').map
      fun c => if c == 'ё' then 'е' else c).map
    fun c => if c == 'ъ' then 'ї' else c

/-- `RVRE.find`: index of the leftmost vowel, if any.  The Rust code uses the
byte offset `m.end()`; at character level the match ends at index + 1. -/
def firstVowelIdx : List Char → Option Nat
  | [] => none
  | c :: t => if isVowel c then some 0 else (firstVowelIdx t).map (· + 1)

/-- Scan positions `0, 1, …, length` from the left; at each position hand the
remaining suffix to the pattern's matcher `f`, which reports how many
characters the pattern consumes there; return the first matching position
together with that consumed length: pcre2's leftmost-match rule. -/
def suffixScanM (f : List Char → Option Nat) : List Char → Option (Nat × Nat)
  | [] => (f []).map fun m => (0, m)
  | c :: t =>
    match f (c :: t) with
    | some m => some (0, m)
    | none => (suffixScanM f t).map fun r => (r.1 + 1, r.2)

/-- `Regex::find` for an end-anchored pattern: the leftmost matching
position wins and the reported span is `[i, i + consumed)` — the `$`
assertion is zero-width, so it never extends the span. -/
def endFindBy (f : List Char → Option Nat) (s : List Char) :
    Option (Nat × Nat) :=
  (suffixScanM f s).map fun r => (r.1, r.1 + r.2)

/-- One attempt of the literal alternation `(a₁|…|aₖ)$` at a position whose
remaining suffix is `t`, alternatives tried in pattern order.  The pcre2
crate never sets `PCRE2_DOLLAR_ENDONLY`, so the default `$` accepts the end
of the subject and also the position immediately before a newline that ends
the subject (LF, the default newline convention): an alternative matches
when it consumes the whole suffix, or the whole suffix short of one final
`'\n'`. -/
def dollarAlt (alts : List (List Char)) (t : List Char) : Option Nat :=
  alts.findSome? fun a =>
    if t == a || t == a ++ ['\n'] then some a.length else none

/-- `Regex::find` for a pattern `(a₁|…|aₖ)$` whose alternatives are literal
strings. -/
def endFind (alts : List (List Char)) : List Char → Option (Nat × Nat) :=
  endFindBy (dollarAlt alts)

/-- The five literal alternatives of `PERFECTIVEGROUND`, in pattern order. -/
def pgAlts : List (List Char) :=
  ["ив".toList, "ивши".toList, "ившись".toList, "ыв".toList, "ывши".toList]

/-- The lookbehind `(?<=[ая])`, applied to the character immediately before
the current position. -/
def lookbehindAYa (prev : Char) : Bool := prev == 'а' || prev == 'я'

/-- The sixth alternative of `PERFECTIVEGROUND`,
`ывшись((?<=[ая])(в|вши|вшись))`, tried on the suffix starting at the
current position: the literal `ывшись`, then the lookbehind — the character
it inspects is `c6`, the last character the literal consumed — then one of
`в|вши|вшись` running into the final `$`; on success it consumes the six
literal characters plus the inner alternative. -/
def pgAlt6At : List Char → Option Nat
  | c1 :: c2 :: c3 :: c4 :: c5 :: c6 :: rest =>
    if [c1, c2, c3, c4, c5, c6] == "ывшись".toList && lookbehindAYa c6 then
      (dollarAlt ["в".toList, "вши".toList, "вшись".toList] rest).map (6 + ·)
    else none
  | _ => none

/-- One attempt of `PERFECTIVEGROUND` at a position: the five literal
alternatives in pattern order, then the sixth alternative. -/
def pgMatch (t : List Char) : Option Nat :=
  match dollarAlt pgAlts t with
  | some m => some m
  | none => pgAlt6At t

/-- `PERFECTIVEGROUND.find`:
`(ив|ивши|ившись|ыв|ывши|ывшись((?<=[ая])(в|вши|вшись)))$`. -/
def pgFind : List Char → Option (Nat × Nat) :=
  endFindBy pgMatch

/-- `REFLEXIVE`: `(с[яьи])$`. -/
def reflexiveAlts : List (List Char) := ["ся".toList, "сь".toList, "си".toList]

/-- `ADJECTIVE`, alternatives in pattern order (duplicates kept). -/
def adjectiveAlts : List (List Char) :=
  ["ими".toList, "ій".toList, "ий".toList, "а".toList, "е".toList,
   "ова".toList, "ове".toList, "ів".toList, "є".toList, "їй".toList,
   "єє".toList, "еє".toList, "я".toList, "ім".toList, "ем".toList,
   "им".toList, "ім".toList, "их".toList, "іх".toList, "ою".toList,
   "йми".toList, "іми".toList, "у".toList, "ю".toList, "ого".toList,
   "ому".toList, "ої".toList]

/-- `PARTICIPLE`, alternatives in pattern order (duplicates kept). -/
def participleAlts : List (List Char) :=
  ["ий".toList, "ого".toList, "ому".toList, "им".toList, "ім".toList,
   "а".toList, "ій".toList, "у".toList, "ою".toList, "ій".toList,
   "і".toList, "их".toList, "йми".toList, "их".toList]

/-- `VERB`, alternatives in pattern order. -/
def verbAlts : List (List Char) :=
  ["сь".toList, "ся".toList, "ив".toList, "ать".toList, "ять".toList,
   "у".toList, "ю".toList, "ав".toList, "али".toList, "учи".toList,
   "ячи".toList, "вши".toList, "ши".toList, "е".toList, "ме".toList,
   "ати".toList, "яти".toList, "є".toList]

/-- `NOUN`, alternatives in pattern order. -/
def nounAlts : List (List Char) :=
  ["а".toList, "ев".toList, "ов".toList, "е".toList, "ями".toList,
   "ами".toList, "еи".toList, "и".toList, "ей".toList, "ой".toList,
   "ий".toList, "й".toList, "иям".toList, "ям".toList, "ием".toList,
   "ем".toList, "ам".toList, "ом".toList, "о".toList, "у".toList,
   "ах".toList, "иях".toList, "ях".toList, "ы".toList, "ь".toList,
   "ию".toList, "ью".toList, "ю".toList, "ия".toList, "ья".toList,
   "я".toList, "і".toList, "ові".toList, "ї".toList, "ею".toList,
   "єю".toList, "ою".toList, "є".toList, "еві".toList, "ем".toList,
   "єм".toList, "ів".toList, "їв".toList, "ю".toList]

/-- One piece of `DERIVATIONAL`: can `(?<=о)сть?$` complete at the current
position, `prev` being the character just before it?  The default `$` also
accepts the position before a newline that ends the subject. -/
def derivHere (prev : Char) (l : List Char) : Bool :=
  prev == 'о' && (l == "ст".toList || l == "ст".toList ++ ['\n']
    || l == "сть".toList || l == "сть".toList ++ ['\n'])

/-- `.*(?<=о)сть?$` of `DERIVATIONAL`, starting at the current position with
`prev` the character just consumed: either the lookbehind and `сть?$`
complete here, or `.` consumes one more (non-newline) character. -/
def derivTail : Char → List Char → Bool
  | prev, [] => derivHere prev []
  | prev, c :: rest => derivHere prev (c :: rest) || (c != '\n' && derivTail c rest)

/-- Inside the skeleton `[^V][V]+[^V]+[V]` of `DERIVATIONAL`, after `[^V]+`
has consumed at least one non-vowel: consume further non-vowels, then the
single vowel, then the tail.  The classes `[V]` and `[^V]` are disjoint, so
this linear scan is the only possible parse. -/
def derivAfterNV : List Char → Bool
  | [] => false
  | c :: rest => if isVowel c then derivTail c rest else derivAfterNV rest

/-- After `[V]+` has consumed at least one vowel: consume further vowels,
then enter `[^V]+`. -/
def derivAfterV : List Char → Bool
  | [] => false
  | c :: rest => if isVowel c then derivAfterV rest else derivAfterNV rest

/-- `DERIVATIONAL` tried at one starting position: `[^V]`, then the first
vowel of `[V]+`, then the rest of the skeleton and tail. -/
def derivFrom : List Char → Bool
  | c :: d :: rest => !isVowel c && isVowel d && derivAfterV rest
  | _ => false

/-- `DERIVATIONAL.find(..).is_some()`: the pattern
`[^аеиоуюяіїє][аеиоуюяіїє]+[^аеиоуюяіїє]+[аеиоуюяіїє].*(?<=о)сть?$`
matches starting at some position of the buffer. -/
def derivational : List Char → Bool
  | [] => false
  | c :: t => derivFrom (c :: t) || derivational t

/-- The match-and-replace primitive `s`: run `find` on the buffer; on a match
rebuild the buffer as bytes before the match start, then the replacement,
then the bytes after the match end (`replace` in the source); report whether
the content changed (`!orig.eq(rv)`).  `rep` models the parameter `to` of
the source (a keyword here). -/
def sFun (find : List Char → Option (Nat × Nat)) (rep st : List Char) :
    List Char × Bool :=
  match find st with
  | some (a, b) =>
    let r := st.take a ++ rep ++ st.drop b
    (r, !(st == r))
  | none => (st, !(st == st))

/-- Step 1 of `stem_word` (ending-class resolution), exactly as the nested
conditionals of the source: `PERFECTIVEGROUND`, else `REFLEXIVE`, then
`ADJECTIVE` branching to `PARTICIPLE` or to `VERB`/`NOUN`. -/
def step1 (rv : List Char) : List Char :=
  let r1 := sFun pgFind [] rv
  if r1.2 then r1.1
  else
    let r2 := sFun (endFind reflexiveAlts) [] r1.1
    let r3 := sFun (endFind adjectiveAlts) [] r2.1
    if r3.2 then (sFun (endFind participleAlts) [] r3.1).1
    else
      let r4 := sFun (endFind verbAlts) [] r3.1
      if r4.2 then r4.1 else (sFun (endFind nounAlts) [] r4.1).1

/-- Step 2: `N1_RE` is `и$`. -/
def step2 (rv : List Char) : List Char :=
  (sFun (endFind ["и".toList]) [] rv).1

/-- Step 3: only when `DERIVATIONAL` matches the current buffer, attempt
`N2_RE` (`ость$`). -/
def step3 (rv : List Char) : List Char :=
  if derivational rv then (sFun (endFind ["ость".toList]) [] rv).1 else rv

/-- Step 4: attempt `N3_RE` (`ь$`); only if it changed the buffer, attempt
`N4_RE` (`ейше?$`, longer alternative leftmost) and then `N5_RE` (`нн$`)
replaced by `н`. -/
def step4 (rv : List Char) : List Char :=
  let r5 := sFun (endFind ["ь".toList]) [] rv
  if r5.2 then
    let r6 := sFun (endFind ["ейше".toList, "ейш".toList]) [] r5.1
    (sFun (endFind ["нн".toList]) ("н".toList) r6.1).1
  else r5.1

/-- The whole pipeline over the RV buffer. -/
def stemRV (rv : List Char) : List Char := step4 (step3 (step2 (step1 rv)))

/-- `stem_word` on character lists: preprocess, split at the first vowel,
run the pipeline on the RV buffer and reassemble; with no vowel return the
preprocessed word unchanged. -/
def stemList (input : List Char) : List Char :=
  let w := preprocessL input
  match firstVowelIdx w with
  | some i => w.take (i + 1) ++ stemRV (w.drop (i + 1))
  | none => w

/-- The public `stem_word`. -/
def stem_word (word : String) : String := String.mk (stemList word.toList)

/-- `l₁` is a prefix of `l₂`. -/
def isPref (l₁ l₂ : List Char) : Prop := ∃ t, l₂ = l₁ ++ t

/-- Step 1 as the claim words it: attempt `PERFECTIVEGROUND` first; if and
only if that attempt did not change the buffer, apply `REFLEXIVE`
unconditionally, then attempt `ADJECTIVE`; if `ADJECTIVE` changed the buffer
additionally attempt `PARTICIPLE` on the result, otherwise attempt `VERB`,
and attempt `NOUN` only if `VERB` did not change the buffer, each later
attempt observing the buffer state left by the earlier attempts. -/
def step1Claim (rv : List Char) : List Char :=
  let pg := sFun pgFind [] rv
  if pg.2 then pg.1
  else
    let rf := sFun (endFind reflexiveAlts) [] rv
    let adj := sFun (endFind adjectiveAlts) [] rf.1
    if adj.2 then (sFun (endFind participleAlts) [] adj.1).1
    else
      let vb := sFun (endFind verbAlts) [] adj.1
      if vb.2 then vb.1
      else (sFun (endFind nounAlts) [] vb.1).1

/-- Step 4 as the (amended) claim words it: attempt the trailing soft-sign
strip; only if it changed the buffer, additionally attempt the superlative
strip and the doubled-`н` collapse (a replacement by `н`, not a deletion). -/
def step4Claim (rv : List Char) : List Char :=
  let soft := sFun (endFind ["ь".toList]) [] rv
  if soft.2 then
    let sup := sFun (endFind ["ейше".toList, "ейш".toList]) [] soft.1
    (sFun (endFind ["нн".toList]) ("н".toList) sup.1).1
  else soft.1

/-- UTF-8 encoding of one scalar value (1–4 bytes). -/
def utf8EncodeChar (c : Char) : List Nat :=
  let v := c.toNat
  if v < 0x80 then [v]
  else if v < 0x800 then [0xC0 + v / 64, 0x80 + v % 64]
  else if v < 0x10000 then
    [0xE0 + v / 4096, 0x80 + v / 64 % 64, 0x80 + v % 64]
  else
    [0xF0 + v / 0x40000, 0x80 + v / 4096 % 64, 0x80 + v / 64 % 64,
      0x80 + v % 64]

/-- The UTF-8 bytes of a character buffer, as the Rust `Bytes` hold them. -/
def utf8EncodeList (l : List Char) : List Nat :=
  (l.map utf8EncodeChar).flatten

/-- A continuation byte `10xxxxxx`. -/
def isCont (b : Nat) : Bool := 0x80 ≤ b && b < 0xC0

/-- Strict UTF-8 decoding of a two-byte sequence after its first byte. -/
def utf8Dec2 (b1 : Nat) : List Nat → Option (Char × List Nat)
  | b2 :: rest =>
    if isCont b2 then
      let v := (b1 - 0xC0) * 64 + (b2 - 0x80)
      if 0x80 ≤ v then some (Char.ofNat v, rest) else none
    else none
  | [] => none

/-- Strict UTF-8 decoding of a three-byte sequence after its first byte. -/
def utf8Dec3 (b1 : Nat) : List Nat → Option (Char × List Nat)
  | b2 :: b3 :: rest =>
    if isCont b2 && isCont b3 then
      let v := (b1 - 0xE0) * 4096 + (b2 - 0x80) * 64 + (b3 - 0x80)
      if 0x800 ≤ v && (v < 0xD800 || 0xE000 ≤ v) then
        some (Char.ofNat v, rest)
      else none
    else none
  | _ => none

/-- Strict UTF-8 decoding of a four-byte sequence after its first byte. -/
def utf8Dec4 (b1 : Nat) : List Nat → Option (Char × List Nat)
  | b2 :: b3 :: b4 :: rest =>
    if isCont b2 && isCont b3 && isCont b4 then
      let v := (b1 - 0xF0) * 0x40000 + (b2 - 0x80) * 4096 +
        (b3 - 0x80) * 64 + (b4 - 0x80)
      if 0x10000 ≤ v && v < 0x110000 then some (Char.ofNat v, rest)
      else none
    else none
  | _ => none

/-- Strict UTF-8 decoding of one scalar value from the front of a byte
sequence (overlong forms and surrogates rejected). -/
def utf8DecodeChar : List Nat → Option (Char × List Nat)
  | [] => none
  | b1 :: rest =>
    if b1 < 0x80 then some (Char.ofNat b1, rest)
    else if b1 < 0xC0 then none
    else if b1 < 0xE0 then utf8Dec2 b1 rest
    else if b1 < 0xF0 then utf8Dec3 b1 rest
    else if b1 < 0xF8 then utf8Dec4 b1 rest
    else none

/-- Fuelled decoding loop (each step consumes at least one byte). -/
def utf8DecodeAux : Nat → List Nat → Option (List Char)
  | _, [] => some []
  | 0, _ :: _ => none
  | fuel + 1, b :: rest =>
    match utf8DecodeChar (b :: rest) with
    | some (c, rest2) => (utf8DecodeAux fuel rest2).map (c :: ·)
    | none => none

/-- `std::str::from_utf8` on a byte list. -/
def utf8Decode (l : List Nat) : Option (List Char) := utf8DecodeAux l.length l

/-- `as_str`: decode the assembled bytes; `none` models the
`expect("not correct utf8 bytes")` panic branch. -/
def as_str (b : List Nat) : Option String := (utf8Decode b).map String.mk

/-- `stem_word` with its panic site explicit: the final assembly
`start ++ rv` of the two byte buffers is decoded by `as_str`; `none` is the
panic branch; all other operations of the source are total. -/
def stem_word_checked (word : String) : Option String :=
  let w := preprocessL word.toList
  match firstVowelIdx w with
  | some i =>
    as_str (utf8EncodeList (w.take (i + 1)) ++
      utf8EncodeList (stemRV (w.drop (i + 1))))
  | none => some (String.mk w)

theorem suffixScanM_some_ok {f : List Char → Option Nat} {s : List Char}
    {i m : Nat} (h : suffixScanM f s = some (i, m)) :
    f (s.drop i) = some m := by
  induction s generalizing i m with
  | nil =>
    simp only [suffixScanM, Option.map_eq_some'] at h
    obtain ⟨m', hm', heq⟩ := h
    rw [Prod.mk.injEq] at heq
    obtain ⟨h1, h2⟩ := heq
    subst h1
    subst h2
    simpa using hm'
  | cons c t ih =>
    cases hf : f (c :: t) with
    | some m' =>
      simp only [suffixScanM, hf, Option.some.injEq, Prod.mk.injEq] at h
      obtain ⟨h1, h2⟩ := h
      subst h1
      subst h2
      simpa using hf
    | none =>
      simp only [suffixScanM, hf, Option.map_eq_some'] at h
      obtain ⟨⟨i', m''⟩, hr, heq⟩ := h
      rw [Prod.mk.injEq] at heq
      obtain ⟨h1, h2⟩ := heq
      subst h1
      subst h2
      simpa [List.drop_succ_cons] using ih hr

theorem suffixScanM_some_le {f : List Char → Option Nat} {s : List Char}
    {i m : Nat} (h : suffixScanM f s = some (i, m)) : i ≤ s.length := by
  induction s generalizing i m with
  | nil =>
    simp only [suffixScanM, Option.map_eq_some'] at h
    obtain ⟨m', hm', heq⟩ := h
    rw [Prod.mk.injEq] at heq
    obtain ⟨h1, h2⟩ := heq
    subst h1
    simp
  | cons c t ih =>
    cases hf : f (c :: t) with
    | some m' =>
      simp only [suffixScanM, hf, Option.some.injEq, Prod.mk.injEq] at h
      obtain ⟨h1, h2⟩ := h
      subst h1
      simp
    | none =>
      simp only [suffixScanM, hf, Option.map_eq_some'] at h
      obtain ⟨⟨i', m''⟩, hr, heq⟩ := h
      rw [Prod.mk.injEq] at heq
      obtain ⟨h1, h2⟩ := heq
      subst h1
      have := ih hr
      simp only [List.length_cons]
      omega

theorem suffixScanM_some_min {f : List Char → Option Nat} {s : List Char}
    {i m : Nat} (h : suffixScanM f s = some (i, m)) :
    ∀ j, j < i → f (s.drop j) = none := by
  induction s generalizing i m with
  | nil =>
    simp only [suffixScanM, Option.map_eq_some'] at h
    obtain ⟨m', hm', heq⟩ := h
    rw [Prod.mk.injEq] at heq
    obtain ⟨h1, h2⟩ := heq
    subst h1
    omega
  | cons c t ih =>
    cases hf : f (c :: t) with
    | some m' =>
      simp only [suffixScanM, hf, Option.some.injEq, Prod.mk.injEq] at h
      obtain ⟨h1, h2⟩ := h
      subst h1
      omega
    | none =>
      simp only [suffixScanM, hf, Option.map_eq_some'] at h
      obtain ⟨⟨i', m''⟩, hr, heq⟩ := h
      rw [Prod.mk.injEq] at heq
      obtain ⟨h1, h2⟩ := heq
      subst h1
      intro j hj
      match j with
      | 0 => simpa using hf
      | k + 1 =>
        rw [List.drop_succ_cons]
        exact ih hr k (by omega)

theorem suffixScanM_none_ok {f : List Char → Option Nat} {s : List Char}
    (h : suffixScanM f s = none) : ∀ j, f (s.drop j) = none := by
  induction s with
  | nil =>
    intro j
    simp only [suffixScanM, Option.map_eq_none'] at h
    simpa using h
  | cons c t ih =>
    cases hf : f (c :: t) with
    | some m => simp [suffixScanM, hf] at h
    | none =>
      simp only [suffixScanM, hf, Option.map_eq_none'] at h
      intro j
      match j with
      | 0 => simpa using hf
      | k + 1 => simpa [List.drop_succ_cons] using ih h k

theorem suffixScanM_eq_some {f : List Char → Option Nat} {s : List Char}
    {i m : Nat} (h1 : f (s.drop i) = some m)
    (h2 : ∀ j, j < i → f (s.drop j) = none) :
    suffixScanM f s = some (i, m) := by
  induction s generalizing i with
  | nil =>
    match i with
    | 0 =>
      simp only [List.drop_nil] at h1
      simp [suffixScanM, h1]
    | k + 1 =>
      have h0 := h2 0 (by omega)
      simp only [List.drop_nil] at h0 h1
      rw [h0] at h1
      cases h1
  | cons c t ih =>
    match i with
    | 0 =>
      simp only [List.drop_zero] at h1
      simp [suffixScanM, h1]
    | k + 1 =>
      have h0 := h2 0 (by omega)
      simp only [List.drop_zero] at h0
      simp only [suffixScanM, h0]
      rw [ih (by simpa [List.drop_succ_cons] using h1)
        (fun j hj => by simpa [List.drop_succ_cons] using h2 (j + 1) (by omega))]
      rfl

theorem suffixScanM_eq_none {f : List Char → Option Nat} {s : List Char}
    (h : ∀ j, f (s.drop j) = none) : suffixScanM f s = none := by
  induction s with
  | nil =>
    simp only [suffixScanM, Option.map_eq_none']
    simpa using h 0
  | cons c t ih =>
    have h0 := h 0
    simp only [List.drop_zero] at h0
    simp only [suffixScanM, h0, Option.map_eq_none']
    exact ih fun j => by simpa [List.drop_succ_cons] using h (j + 1)

theorem sFun_endFindBy_some {f : List Char → Option Nat} {s : List Char}
    {i m : Nat} (rep : List Char) (h : suffixScanM f s = some (i, m)) :
    sFun (endFindBy f) rep s
      = (s.take i ++ rep ++ s.drop (i + m),
          !(s == s.take i ++ rep ++ s.drop (i + m))) := by
  simp [sFun, endFindBy, h]

theorem sFun_endFindBy_none {f : List Char → Option Nat} {s : List Char}
    (rep : List Char) (h : suffixScanM f s = none) :
    sFun (endFindBy f) rep s = (s, false) := by
  simp [sFun, endFindBy, h]

theorem sFun_snd_false {f : List Char → Option (Nat × Nat)}
    {rep st : List Char} (h : (sFun f rep st).2 = false) :
    (sFun f rep st).1 = st := by
  cases hf : f st with
  | none => simp [sFun, hf]
  | some ab =>
    obtain ⟨a, b⟩ := ab
    have h' : (st == st.take a ++ rep ++ st.drop b) = true := by
      simpa [sFun, hf] using h
    simp only [sFun, hf]
    exact (eq_of_beq h').symm

theorem dollarAlt_eq_some {alts : List (List Char)} {t : List Char} {m : Nat}
    (h : dollarAlt alts t = some m) :
    ∃ a ∈ alts, a.length = m ∧ (t = a ∨ t = a ++ ['\n']) := by
  obtain ⟨a, ha, hfa⟩ := List.exists_of_findSome?_eq_some h
  by_cases hc : (t == a || t == a ++ ['\n']) = true
  · rw [if_pos hc] at hfa
    rw [Option.some.injEq] at hfa
    rw [Bool.or_eq_true] at hc
    refine ⟨a, ha, hfa, ?_⟩
    rcases hc with hc | hc
    · exact Or.inl (eq_of_beq hc)
    · exact Or.inr (eq_of_beq hc)
  · rw [if_neg hc] at hfa
    cases hfa

theorem dollarAlt_isSome {alts : List (List Char)} {t a : List Char}
    (ha : a ∈ alts) (hc : t = a ∨ t = a ++ ['\n']) :
    dollarAlt alts t ≠ none := by
  intro hn
  rw [dollarAlt, List.findSome?_eq_none_iff] at hn
  have hfa := hn a ha
  rcases hc with rfl | rfl
  · simp at hfa
  · simp at hfa

theorem dollarAlt_le {alts : List (List Char)} {t : List Char} {m : Nat}
    (h : dollarAlt alts t = some m) : m ≤ t.length := by
  obtain ⟨a, ha, hm, hc⟩ := dollarAlt_eq_some h
  subst hm
  rcases hc with rfl | rfl
  · exact Nat.le_refl _
  · simp [List.length_append]

theorem sFun_endFind_some {alts : List (List Char)} {s : List Char}
    {i m : Nat} (rep : List Char)
    (h : suffixScanM (dollarAlt alts) s = some (i, m)) :
    sFun (endFind alts) rep s
      = (s.take i ++ rep ++ s.drop (i + m),
          !(s == s.take i ++ rep ++ s.drop (i + m))) :=
  sFun_endFindBy_some rep h

theorem sFun_endFind_none {alts : List (List Char)} {s : List Char}
    (rep : List Char) (h : suffixScanM (dollarAlt alts) s = none) :
    sFun (endFind alts) rep s = (s, false) :=
  sFun_endFindBy_none rep h

theorem utf8EncodeList_append (a b : List Char) :
    utf8EncodeList (a ++ b) = utf8EncodeList a ++ utf8EncodeList b := by
  simp [utf8EncodeList]

theorem utf8Len_decomp (s : List Char) (i m : Nat) :
    (utf8EncodeList s).length
      = (utf8EncodeList (s.take i)).length
        + ((utf8EncodeList ((s.drop i).take m)).length
            + (utf8EncodeList (s.drop (i + m))).length) := by
  have h2 : (s.drop i).drop m = s.drop (i + m) := List.drop_drop m i s
  have h1 : s = s.take i ++ ((s.drop i).take m ++ s.drop (i + m)) := by
    rw [← h2, List.take_append_drop, List.take_append_drop]
  conv_lhs => rw [h1]
  rw [utf8EncodeList_append, utf8EncodeList_append, List.length_append,
    List.length_append]

theorem utf8Len_del_le (f : List Char → Option Nat) (s : List Char) :
    (utf8EncodeList ((sFun (endFindBy f) [] s).1)).length
      ≤ (utf8EncodeList s).length := by
  cases h : suffixScanM f s with
  | none =>
    rw [sFun_endFindBy_none [] h]
  | some r =>
    obtain ⟨i, m⟩ := r
    rw [sFun_endFindBy_some [] h]
    show (utf8EncodeList (s.take i ++ [] ++ s.drop (i + m))).length ≤ _
    rw [List.append_nil, utf8EncodeList_append, List.length_append,
      utf8Len_decomp s i m]
    omega

theorem utf8Len_endFind_le (alts : List (List Char)) (s : List Char) :
    (utf8EncodeList ((sFun (endFind alts) [] s).1)).length
      ≤ (utf8EncodeList s).length := utf8Len_del_le (dollarAlt alts) s

theorem utf8Len_pgFind_le (s : List Char) :
    (utf8EncodeList ((sFun pgFind [] s).1)).length
      ≤ (utf8EncodeList s).length := utf8Len_del_le pgMatch s

theorem utf8Len_nn_le (s : List Char) :
    (utf8EncodeList
        ((sFun (endFind ["нн".toList]) ("н".toList) s).1)).length
      ≤ (utf8EncodeList s).length := by
  cases h : suffixScanM (dollarAlt ["нн".toList]) s with
  | none =>
    rw [sFun_endFind_none _ h]
  | some r =>
    obtain ⟨i, m⟩ := r
    obtain ⟨a, ha, hm, hc⟩ := dollarAlt_eq_some (suffixScanM_some_ok h)
    have ha' : a = "нн".toList := by simpa using ha
    subst ha'
    have hm2 : m = 2 := by rw [← hm]; rfl
    subst hm2
    have hseg : (s.drop i).take 2 = "нн".toList := by
      rcases hc with hc | hc <;> rw [hc] <;> rfl
    rw [sFun_endFind_some ("н".toList) h]
    show (utf8EncodeList
        (s.take i ++ "н".toList ++ s.drop (i + 2))).length ≤ _
    rw [utf8EncodeList_append, utf8EncodeList_append, List.length_append,
      List.length_append, utf8Len_decomp s i 2, hseg]
    have hle : (utf8EncodeList ("н".toList)).length
        ≤ (utf8EncodeList ("нн".toList)).length := by decide
    omega

theorem step1_len (rv : List Char) :
    (utf8EncodeList (step1 rv)).length ≤ (utf8EncodeList rv).length := by
  have hpg := utf8Len_pgFind_le rv
  unfold step1
  by_cases h1 : (sFun pgFind [] rv).2
  · rw [if_pos h1]
    exact hpg
  · rw [if_neg h1]
    have h2 := utf8Len_endFind_le reflexiveAlts ((sFun pgFind [] rv).1)
    have h3 := utf8Len_endFind_le adjectiveAlts
      ((sFun (endFind reflexiveAlts) [] (sFun pgFind [] rv).1).1)
    by_cases hA : (sFun (endFind adjectiveAlts) []
        (sFun (endFind reflexiveAlts) [] (sFun pgFind [] rv).1).1).2
    · rw [if_pos hA]
      have h4 := utf8Len_endFind_le participleAlts
        ((sFun (endFind adjectiveAlts) []
          (sFun (endFind reflexiveAlts) [] (sFun pgFind [] rv).1).1).1)
      omega
    · rw [if_neg hA]
      have h4 := utf8Len_endFind_le verbAlts
        ((sFun (endFind adjectiveAlts) []
          (sFun (endFind reflexiveAlts) [] (sFun pgFind [] rv).1).1).1)
      by_cases hV : (sFun (endFind verbAlts) []
          (sFun (endFind adjectiveAlts) []
            (sFun (endFind reflexiveAlts) [] (sFun pgFind [] rv).1).1).1).2
      · rw [if_pos hV]
        omega
      · rw [if_neg hV]
        have h5 := utf8Len_endFind_le nounAlts
          ((sFun (endFind verbAlts) []
            (sFun (endFind adjectiveAlts) []
              (sFun (endFind reflexiveAlts) [] (sFun pgFind [] rv).1).1).1).1)
        omega

theorem step2_len (rv : List Char) :
    (utf8EncodeList (step2 rv)).length ≤ (utf8EncodeList rv).length :=
  utf8Len_endFind_le ["и".toList] rv

theorem step3_len (rv : List Char) :
    (utf8EncodeList (step3 rv)).length ≤ (utf8EncodeList rv).length := by
  unfold step3
  by_cases h : derivational rv
  · rw [if_pos h]
    exact utf8Len_endFind_le ["ость".toList] rv
  · rw [if_neg h]

theorem step4_len (rv : List Char) :
    (utf8EncodeList (step4 rv)).length ≤ (utf8EncodeList rv).length := by
  have hsoft := utf8Len_endFind_le ["ь".toList] rv
  unfold step4
  by_cases h : (sFun (endFind ["ь".toList]) [] rv).2
  · rw [if_pos h]
    have h6 := utf8Len_endFind_le ["ейше".toList, "ейш".toList]
      ((sFun (endFind ["ь".toList]) [] rv).1)
    have h7 := utf8Len_nn_le
      ((sFun (endFind ["ейше".toList, "ейш".toList]) []
        (sFun (endFind ["ь".toList]) [] rv).1).1)
    exact Nat.le_trans h7 (Nat.le_trans h6 hsoft)
  · rw [if_neg h]
    exact hsoft

theorem stemRV_len (rv : List Char) :
    (utf8EncodeList (stemRV rv)).length ≤ (utf8EncodeList rv).length :=
  Nat.le_trans (step4_len _) (Nat.le_trans (step3_len _)
    (Nat.le_trans (step2_len _) (step1_len rv)))

theorem char_valid_nat (c : Char) :
    c.toNat < 0xd800 ∨ 0xdfff < c.toNat ∧ c.toNat < 0x110000 := c.valid

theorem utf8DecodeChar_encode (c : Char) (rest : List Nat) :
    utf8DecodeChar (utf8EncodeChar c ++ rest) = some (c, rest) := by
  have hvalid := char_valid_nat c
  by_cases h1 : c.toNat < 0x80
  · have he : utf8EncodeChar c = [c.toNat] := by
      simp only [utf8EncodeChar]
      rw [if_pos h1]
    rw [he, List.cons_append, List.nil_append]
    simp only [utf8DecodeChar]
    rw [if_pos h1, Char.ofNat_toNat]
  · by_cases h2 : c.toNat < 0x800
    · have he : utf8EncodeChar c
          = [0xC0 + c.toNat / 64, 0x80 + c.toNat % 64] := by
        simp only [utf8EncodeChar]
        rw [if_neg h1, if_pos h2]
      rw [he, List.cons_append, List.cons_append, List.nil_append]
      simp only [utf8DecodeChar]
      rw [if_neg (by omega), if_neg (by omega), if_pos (by omega)]
      simp only [utf8Dec2]
      rw [if_pos (by
        simp only [isCont, Bool.and_eq_true, decide_eq_true_eq]
        omega)]
      rw [show (0xC0 + c.toNat / 64 - 0xC0) * 64 + (0x80 + c.toNat % 64 - 0x80)
          = c.toNat from by omega]
      rw [if_pos (by omega), Char.ofNat_toNat]
    · by_cases h3 : c.toNat < 0x10000
      · have he : utf8EncodeChar c
            = [0xE0 + c.toNat / 4096, 0x80 + c.toNat / 64 % 64,
                0x80 + c.toNat % 64] := by
          simp only [utf8EncodeChar]
          rw [if_neg h1, if_neg h2, if_pos h3]
        rw [he, List.cons_append, List.cons_append, List.cons_append,
          List.nil_append]
        simp only [utf8DecodeChar]
        rw [if_neg (by omega), if_neg (by omega), if_neg (by omega),
          if_pos (by omega)]
        simp only [utf8Dec3]
        rw [if_pos (by
          simp only [isCont, Bool.and_eq_true, decide_eq_true_eq]
          omega)]
        rw [show (0xE0 + c.toNat / 4096 - 0xE0) * 4096 +
            (0x80 + c.toNat / 64 % 64 - 0x80) * 64 +
            (0x80 + c.toNat % 64 - 0x80) = c.toNat from by omega]
        rw [if_pos (by
          simp only [Bool.and_eq_true, Bool.or_eq_true, decide_eq_true_eq]
          omega)]
        rw [Char.ofNat_toNat]
      · have he : utf8EncodeChar c
            = [0xF0 + c.toNat / 0x40000, 0x80 + c.toNat / 4096 % 64,
                0x80 + c.toNat / 64 % 64, 0x80 + c.toNat % 64] := by
          simp only [utf8EncodeChar]
          rw [if_neg h1, if_neg h2, if_neg h3]
        have hub : c.toNat < 0x110000 := by omega
        rw [he, List.cons_append, List.cons_append, List.cons_append,
          List.cons_append, List.nil_append]
        simp only [utf8DecodeChar]
        rw [if_neg (by omega), if_neg (by omega), if_neg (by omega),
          if_neg (by omega), if_pos (by omega)]
        simp only [utf8Dec4]
        rw [if_pos (by
          simp only [isCont, Bool.and_eq_true, decide_eq_true_eq]
          omega)]
        rw [show (0xF0 + c.toNat / 0x40000 - 0xF0) * 0x40000 +
            (0x80 + c.toNat / 4096 % 64 - 0x80) * 4096 +
            (0x80 + c.toNat / 64 % 64 - 0x80) * 64 +
            (0x80 + c.toNat % 64 - 0x80) = c.toNat from by omega]
        rw [if_pos (by
          simp only [Bool.and_eq_true, decide_eq_true_eq]
          omega)]
        rw [Char.ofNat_toNat]

theorem utf8EncodeChar_ne_nil (c : Char) : utf8EncodeChar c ≠ [] := by
  simp only [utf8EncodeChar]
  split
  · simp
  · split
    · simp
    · split <;> simp

theorem utf8DecodeAux_encode (l : List Char) (fuel : Nat)
    (h : (utf8EncodeList l).length ≤ fuel) :
    utf8DecodeAux fuel (utf8EncodeList l) = some l := by
  induction l generalizing fuel with
  | nil => cases fuel <;> simp [utf8EncodeList, utf8DecodeAux]
  | cons c t ih =>
    have hsplit : utf8EncodeList (c :: t)
        = utf8EncodeChar c ++ utf8EncodeList t := by
      simp [utf8EncodeList]
    obtain ⟨b, bs, hb⟩ := List.exists_cons_of_ne_nil (utf8EncodeChar_ne_nil c)
    have hlen : 1 ≤ (utf8EncodeChar c).length := by
      rw [hb]; simp
    rw [hsplit] at h ⊢
    rw [List.length_append] at h
    match fuel with
    | 0 => omega
    | fuel + 1 =>
      rw [hb, List.cons_append]
      show utf8DecodeAux (fuel + 1) (b :: (bs ++ utf8EncodeList t)) = _
      simp only [utf8DecodeAux]
      rw [show (b :: (bs ++ utf8EncodeList t))
          = utf8EncodeChar c ++ utf8EncodeList t from by rw [hb, List.cons_append]]
      rw [utf8DecodeChar_encode c (utf8EncodeList t)]
      show Option.map (fun x => c :: x) (utf8DecodeAux fuel (utf8EncodeList t))
        = some (c :: t)
      rw [ih fuel (by rw [hb] at h; simp at h; omega)]
      rfl

theorem utf8Decode_encode (l : List Char) :
    utf8Decode (utf8EncodeList l) = some l :=
  utf8DecodeAux_encode l _ (Nat.le_refl _)

theorem firstVowelIdx_eq_none {l : List Char}
    (h : ∀ c ∈ l, isVowel c = false) : firstVowelIdx l = none := by
  induction l with
  | nil => rfl
  | cons c t ih =>
    have hc := h c (by simp)
    have ht := ih fun d hd => h d (by simp [hd])
    simp [firstVowelIdx, hc, ht]

theorem pgAlt6At_none (t : List Char) : pgAlt6At t = none := by
  have hlit : ("ывшись".toList : List Char) = ['ы', 'в', 'ш', 'и', 'с', 'ь'] :=
    rfl
  match t with
  | [] => rfl
  | [_] => rfl
  | [_, _] => rfl
  | [_, _, _] => rfl
  | [_, _, _, _] => rfl
  | [_, _, _, _, _] => rfl
  | c1 :: c2 :: c3 :: c4 :: c5 :: c6 :: rest =>
    simp only [pgAlt6At, lookbehindAYa]
    by_cases h6 : c6 = 'ь'
    · subst h6
      simp [show (('ь' == 'а') || ('ь' == 'я')) = false from rfl]
    · have hb : ([c1, c2, c3, c4, c5, c6] == "ывшись".toList) = false := by
        rw [beq_eq_false_iff_ne, hlit]
        intro heq
        simp only [List.cons.injEq, and_true] at heq
        exact h6 heq.2.2.2.2.2
      simp only [hb, Bool.false_and]
      rfl

theorem pgMatch_eq (t : List Char) : pgMatch t = dollarAlt pgAlts t := by
  cases h : dollarAlt pgAlts t with
  | some m => simp [pgMatch, h]
  | none => simp [pgMatch, h, pgAlt6At_none]

theorem pgMatch_le {t : List Char} {m : Nat} (h : pgMatch t = some m) :
    m ≤ t.length :=
  dollarAlt_le ((pgMatch_eq t).symm.trans h)

theorem getLast?_of_drop {q a : List Char} {j : Nat}
    (h : q.drop j = a) (ha : a ≠ []) : q.getLast? = a.getLast? := by
  have h1 : q = q.take j ++ a := by rw [← h, List.take_append_drop]
  rw [h1, List.getLast?_append]
  cases hl : a.getLast? with
  | none => exact absurd (List.getLast?_eq_none_iff.mp hl) ha
  | some z => rfl

/-- C1: in Step 1, `stem_word` first attempts `PERFECTIVEGROUND` on the RV
buffer; if and only if that attempt did not change the buffer it then applies
`REFLEXIVE` unconditionally, then attempts `ADJECTIVE`; if `ADJECTIVE`
changed the buffer it additionally attempts `PARTICIPLE` on the result,
otherwise it attempts `VERB`, and attempts `NOUN` only if `VERB` did not
change the buffer — in exactly this order, each later attempt observing the
buffer state left by the earlier attempts.  `step1` is the source's nested
conditionals; `step1Claim` is written from the claim's wording. -/
theorem c1_step1_order (rv : List Char) : step1 rv = step1Claim rv := by
  by_cases hpg : (sFun pgFind [] rv).2 = true
  · simp only [step1, step1Claim, if_pos hpg]
  · have hfalse : (sFun pgFind [] rv).2 = false := by
      revert hpg
      cases (sFun pgFind [] rv).2 <;> simp
    have h1 : (sFun pgFind [] rv).1 = rv := sFun_snd_false hfalse
    simp only [step1, step1Claim, if_neg hpg, h1]

/-- C2: `stem_word "ручкається" = "ручкаєт"`. -/
theorem c2_ruchkaietsia : stem_word "ручкається" = "ручкаєт" := by decide

/-- C3: for every input word, the byte length of the string returned by
`stem_word` is between 0 and the byte length of the preprocessed input,
inclusive; in particular the output is never longer than the preprocessed
input. -/
theorem c3_output_never_longer (word : String) :
    0 ≤ (utf8EncodeList (stem_word word).toList).length
    ∧ (utf8EncodeList (stem_word word).toList).length
        ≤ (utf8EncodeList (preprocessL word.toList)).length := by
  refine ⟨Nat.zero_le _, ?_⟩
  have hl : (stem_word word).toList = stemList word.toList := rfl
  rw [hl]
  cases h : firstVowelIdx (preprocessL word.toList) with
  | none =>
    simp only [stemList, h]
    exact Nat.le_refl _
  | some i =>
    simp only [stemList, h]
    have hmono := stemRV_len ((preprocessL word.toList).drop (i + 1))
    have hsplit : preprocessL word.toList
        = (preprocessL word.toList).take (i + 1)
          ++ (preprocessL word.toList).drop (i + 1) :=
      (List.take_append_drop (i + 1) (preprocessL word.toList)).symm
    calc (utf8EncodeList ((preprocessL word.toList).take (i + 1)
            ++ stemRV ((preprocessL word.toList).drop (i + 1)))).length
        = (utf8EncodeList ((preprocessL word.toList).take (i + 1))).length
            + (utf8EncodeList
                (stemRV ((preprocessL word.toList).drop (i + 1)))).length := by
          rw [utf8EncodeList_append, List.length_append]
      _ ≤ (utf8EncodeList ((preprocessL word.toList).take (i + 1))).length
            + (utf8EncodeList ((preprocessL word.toList).drop (i + 1))).length := by
          omega
      _ = (utf8EncodeList (preprocessL word.toList)).length := by
          conv_rhs => rw [hsplit]
          rw [utf8EncodeList_append, List.length_append]

/-- C4: for every input whose preprocessed form contains no vowel of the set
`аеиоуюяіїє` anywhere (including the empty string), `stem_word` returns the
preprocessed word unchanged — no RV split is made and no suffix-stripping
step is applied. -/
theorem c4_no_vowel_unchanged (word : String)
    (h : ∀ c ∈ preprocessL word.toList, isVowel c = false) :
    stem_word word = String.mk (preprocessL word.toList) := by
  unfold stem_word
  simp only [stemList, firstVowelIdx_eq_none h]

theorem c4_no_vowel_unchanged_witness :
    (∀ c ∈ preprocessL "пстр".toList, isVowel c = false)
    ∧ stem_word "пстр" = "пстр" :=
  ⟨by decide, (c4_no_vowel_unchanged "пстр" (by decide)).trans (by decide)⟩

/-- C5 counterexample: for the input `аьнн` the RV buffer is `ьнн` — it ends
in a doubled `н` preceded by a soft sign — yet the output keeps the doubled
`н` intact: the soft-sign strip `ь$` cannot match a buffer that ends in `н`,
so Step 4 never reaches the doubled-`н` collapse, refuting the claim's "in
particular" sentence as stated. -/
theorem c5_counterexample :
    preprocessL "аьнн".toList = "аьнн".toList
    ∧ firstVowelIdx (preprocessL "аьнн".toList) = some 0
    ∧ (preprocessL "аьнн".toList).drop 1 = ['ь', 'н', 'н']
    ∧ stem_word "аьнн" = "аьнн" :=
  ⟨by decide, by decide, by decide, by decide⟩

/-- C5 (amended): in Step 4, `stem_word` attempts to strip a trailing soft
sign from the RV buffer, and only if that strip changed the buffer does it
additionally attempt the superlative marker and the replacement of a
trailing doubled `н` by a single `н` (so neither attempt runs when the
soft-sign strip did not change the buffer); in particular a buffer that
reaches Step 4 ending in a doubled `н` followed by a soft sign leaves
Step 4 with that doubled `н` reduced to a single `н`. -/
theorem c5_step4_soft_sign_gate :
    (∀ rv, step4 rv = step4Claim rv)
    ∧ ∀ p : List Char, step4 (p ++ "ннь".toList) = p ++ "н".toList := by
  refine ⟨fun _ => rfl, ?_⟩
  intro p
  have hqs : p ++ "ннь".toList = (p ++ ['н', 'н']) ++ ['ь'] := by
    rw [List.append_assoc]
    rfl
  have hlenq : (p ++ ['н', 'н']).length = p.length + 2 := by
    rw [List.length_append]
    rfl
  have hlens : ((p ++ ['н', 'н']) ++ ['ь']).length = p.length + 3 := by
    rw [List.length_append, hlenq]
    rfl
  have hsLast : ((p ++ ['н', 'н']) ++ ['ь']).getLast? = some 'ь' := by
    rw [List.getLast?_append]
    rfl
  have hqLast : (p ++ ['н', 'н']).getLast? = some 'н' := by
    rw [List.getLast?_append]
    rfl
  have hscan1 : suffixScanM (dollarAlt ["ь".toList])
      ((p ++ ['н', 'н']) ++ ['ь']) = some ((p ++ ['н', 'н']).length, 1) := by
    apply suffixScanM_eq_some
    · rw [List.drop_left]
      decide
    · intro j hj
      rw [hlenq] at hj
      cases hok : dollarAlt ["ь".toList]
          (((p ++ ['н', 'н']) ++ ['ь']).drop j) with
      | none => rfl
      | some m =>
        exfalso
        obtain ⟨a, ha, hm, hc⟩ := dollarAlt_eq_some hok
        have ha' : a = "ь".toList := by simpa using ha
        subst ha'
        rcases hc with hc | hc
        · have hlen := congrArg List.length hc
          rw [List.length_drop, hlens,
            show ("ь".toList : List Char).length = 1 from rfl] at hlen
          omega
        · have hlast := getLast?_of_drop hc (by decide)
          rw [hsLast] at hlast
          exact absurd hlast (by decide)
  have htake1 : ((p ++ ['н', 'н']) ++ ['ь']).take ((p ++ ['н', 'н']).length)
      = p ++ ['н', 'н'] := List.take_left _ _
  have hdrop1 : ((p ++ ['н', 'н']) ++ ['ь']).drop ((p ++ ['н', 'н']).length + 1)
      = [] := by
    rw [show (p ++ ['н', 'н']).length + 1 = ((p ++ ['н', 'н']) ++ ['ь']).length
      from by rw [hlens, hlenq]]
    exact List.drop_length _
  have hflag1 : (((p ++ ['н', 'н']) ++ ['ь']) == p ++ ['н', 'н']) = false := by
    rw [beq_eq_false_iff_ne]
    intro hcontra
    have hlc := congrArg List.length hcontra
    rw [hlens, hlenq] at hlc
    omega
  have hscan4 : suffixScanM (dollarAlt ["ейше".toList, "ейш".toList])
      (p ++ ['н', 'н']) = none := by
    apply suffixScanM_eq_none
    intro j
    cases hok : dollarAlt ["ейше".toList, "ейш".toList]
        ((p ++ ['н', 'н']).drop j) with
    | none => rfl
    | some m =>
      exfalso
      obtain ⟨a, ha, hm, hc⟩ := dollarAlt_eq_some hok
      have hmem : a = "ейше".toList ∨ a = "ейш".toList := by simpa using ha
      have hne : a ≠ [] := by
        rcases hmem with rfl | rfl <;> decide
      have hne2 : a ++ ['\n'] ≠ [] := by simp
      rcases hc with hc | hc
      · have hlast := getLast?_of_drop hc hne
        rw [hqLast] at hlast
        rcases hmem with rfl | rfl
        · exact absurd hlast (by decide)
        · exact absurd hlast (by decide)
      · have hlast := getLast?_of_drop hc hne2
        rw [hqLast] at hlast
        rcases hmem with rfl | rfl
        · exact absurd hlast (by decide)
        · exact absurd hlast (by decide)
  have hscan5 : suffixScanM (dollarAlt ["нн".toList]) (p ++ ['н', 'н'])
      = some (p.length, 2) := by
    apply suffixScanM_eq_some
    · rw [List.drop_left]
      decide
    · intro j hj
      cases hok : dollarAlt ["нн".toList] ((p ++ ['н', 'н']).drop j) with
      | none => rfl
      | some m =>
        exfalso
        obtain ⟨a, ha, hm, hc⟩ := dollarAlt_eq_some hok
        have ha' : a = "нн".toList := by simpa using ha
        subst ha'
        rcases hc with hc | hc
        · have hlen := congrArg List.length hc
          rw [List.length_drop, hlenq,
            show ("нн".toList : List Char).length = 2 from rfl] at hlen
          omega
        · have hlast := getLast?_of_drop hc (by decide)
          rw [hqLast] at hlast
          exact absurd hlast (by decide)
  have htake5 : (p ++ ['н', 'н']).take p.length = p := List.take_left _ _
  have hdrop5 : (p ++ ['н', 'н']).drop (p.length + 2) = [] := by
    rw [show p.length + 2 = (p ++ ['н', 'н']).length from by rw [hlenq]]
    exact List.drop_length _
  rw [hqs]
  unfold step4
  rw [sFun_endFind_some [] hscan1]
  simp only [htake1, hdrop1, List.append_nil, hflag1, Bool.not_false, if_true]
  show (sFun (endFind ["нн".toList]) ("н".toList)
      ((sFun (endFind ["ейше".toList, "ейш".toList]) []
        (p ++ ['н', 'н'])).1)).1 = p ++ "н".toList
  rw [sFun_endFind_none [] hscan4]
  show (sFun (endFind ["нн".toList]) ("н".toList) (p ++ ['н', 'н'])).1
    = p ++ "н".toList
  rw [sFun_endFind_some ("н".toList) hscan5]
  simp only [htake5, hdrop5, List.append_nil]

/-- C6: Step 3 attempts to strip `ость$` if and only if the current RV
buffer after Step 2 matches `DERIVATIONAL` under its literal semantics — the
final soft sign being strictly optional, the pattern accepts both a buffer
ending in `ост` and one ending in `ость`, each with `о` before the `ст`;
when the check does not match, Step 3 leaves the buffer unchanged. -/
theorem c6_derivational_gate :
    (∀ rv, step3 rv
        = if derivational rv
          then (sFun (endFind ["ость".toList]) [] rv).1 else rv)
    ∧ derivational "молодость".toList = true
    ∧ derivational "молодост".toList = true
    ∧ step3 "молодость".toList = "молод".toList
    ∧ step3 "молодост".toList = "молодост".toList :=
  ⟨fun _ => rfl, by decide, by decide, by decide, by decide⟩

/-- C7: for every input whose preprocessed form contains a vowel, the value
returned by `stem_word` is exactly the head (the preprocessed word up to and
including its first vowel) concatenated with the final RV buffer — also at
the byte level — and the head is a prefix of the output, never modified by
any pipeline step. -/
theorem c7_head_immutable (word : String) (i : Nat)
    (h : firstVowelIdx (preprocessL word.toList) = some i) :
    stemList word.toList
        = (preprocessL word.toList).take (i + 1)
          ++ stemRV ((preprocessL word.toList).drop (i + 1))
    ∧ utf8EncodeList (stemList word.toList)
        = utf8EncodeList ((preprocessL word.toList).take (i + 1))
          ++ utf8EncodeList (stemRV ((preprocessL word.toList).drop (i + 1)))
    ∧ isPref ((preprocessL word.toList).take (i + 1)) (stemList word.toList) := by
  have h1 : stemList word.toList
      = (preprocessL word.toList).take (i + 1)
        ++ stemRV ((preprocessL word.toList).drop (i + 1)) := by
    simp only [stemList, h]
  exact ⟨h1, by rw [h1, utf8EncodeList_append], ⟨_, h1⟩⟩

theorem c7_head_immutable_witness :
    stemList "ручкається".toList
      = (preprocessL "ручкається".toList).take 2
        ++ stemRV ((preprocessL "ручкається".toList).drop 2) :=
  (c7_head_immutable "ручкається" 1 (by decide)).1

/-- C8: the match-and-replace primitive `s` returns `true` if and only if
the resulting buffer differs from the input buffer; when the pattern does
not match, the buffer is left unchanged and it returns `false`; when the
pattern matches, the buffer is rebuilt as the bytes before the match start,
the replacement, then the bytes after the match end. -/
theorem c8_s_spec (find : List Char → Option (Nat × Nat)) (rep st : List Char) :
    ((sFun find rep st).2 = true ↔ (sFun find rep st).1 ≠ st)
    ∧ (find st = none → sFun find rep st = (st, false))
    ∧ ∀ a b, find st = some (a, b) →
        (sFun find rep st).1 = st.take a ++ rep ++ st.drop b := by
  cases hf : find st with
  | none =>
    refine ⟨by simp [sFun, hf], fun _ => by simp [sFun, hf], ?_⟩
    intro a b hab
    exact Option.noConfusion hab
  | some ab =>
    obtain ⟨a, b⟩ := ab
    refine ⟨?_, fun hn => Option.noConfusion hn, ?_⟩
    · simp only [sFun, hf]
      rw [Bool.not_eq_true', beq_eq_false_iff_ne]
      exact ne_comm
    · intro a' b' hab
      cases hab
      simp [sFun, hf]

theorem c8_s_spec_witness :
    (sFun (fun _ => some (1, 2)) ("х".toList) ("абв".toList)).1
        = ("абв".toList).take 1 ++ "х".toList ++ ("абв".toList).drop 2
    ∧ sFun (fun _ => none) [] ("а".toList) = ("а".toList, false) :=
  ⟨(c8_s_spec (fun _ => some (1, 2)) ("х".toList) ("абв".toList)).2.2 1 2 rfl,
   (c8_s_spec (fun _ => none) [] ("а".toList)).2.1 rfl⟩

/-- C9: for every input, `stem_word` is total and never panics: the final
head-plus-RV byte assembly always decodes as valid UTF-8, so the failure
branch of `as_str` is unreachable and the checked pipeline returns exactly
the `stem_word` output. -/
theorem c9_total_no_panic (word : String) :
    stem_word_checked word = some (stem_word word) := by
  cases h : firstVowelIdx (preprocessL word.toList) with
  | none => simp only [stem_word_checked, stem_word, stemList, h]
  | some i =>
    simp only [stem_word_checked, stem_word, stemList, h]
    rw [← utf8EncodeList_append]
    unfold as_str
    rw [utf8Decode_encode]
    rfl

/-- C10 counterexample: on the buffer `ив` followed by a final newline the
compiled `PERFECTIVEGROUND` pattern does change the buffer — pcre2's default
`$` matches before the final newline, so `ив` is stripped and only the
newline remains — although that buffer does not end with any of `ив`,
`ивши`, `ившись`, `ыв`, `ывши`, refuting the claim's iff as stated. -/
theorem c10_counterexample :
    (sFun pgFind [] ['и', 'в', '\n']).2 = true
    ∧ (sFun pgFind [] ['и', 'в', '\n']).1 = ['\n']
    ∧ ∀ a ∈ pgAlts, ¬ a <:+ ['и', 'в', '\n'] :=
  ⟨by decide, by decide, by decide⟩

/-- C10 (amended): the compiled `PERFECTIVEGROUND` pattern changes the RV
buffer if and only if the buffer ends with one of `ив`, `ивши`, `ившись`,
`ыв`, `ывши` — either at the very end or immediately before a newline that
ends the buffer, which pcre2's default `$` also accepts — and the nested
alternative `ывшись((?<=[ая])(в|вши|вшись))` can never match, because the
character its lookbehind inspects is the just-matched `ь`; in particular
perfective-gerund endings such as `авши` or `явшись` are never stripped by
Step 1's first attempt. -/
theorem c10_perfectiveground_dead_branch (s : List Char) :
    ((sFun pgFind [] s).2 = true
      ↔ ∃ a ∈ pgAlts, a <:+ s ∨ a ++ ['\n'] <:+ s)
    ∧ ∀ t, pgAlt6At t = none := by
  refine ⟨⟨?_, ?_⟩, pgAlt6At_none⟩
  · intro hch
    cases h : suffixScanM pgMatch s with
    | none =>
      rw [show pgFind = endFindBy pgMatch from rfl,
        sFun_endFindBy_none [] h] at hch
      cases hch
    | some r =>
      obtain ⟨i, m⟩ := r
      have hok := suffixScanM_some_ok h
      rw [pgMatch_eq] at hok
      obtain ⟨a, ha, hm, hc⟩ := dollarAlt_eq_some hok
      refine ⟨a, ha, ?_⟩
      rcases hc with hc | hc
      · exact Or.inl (by rw [← hc]; exact List.drop_suffix i s)
      · exact Or.inr (by rw [← hc]; exact List.drop_suffix i s)
  · rintro ⟨a, ha, hor⟩
    have hexists : ∃ j, pgMatch (s.drop j) ≠ none := by
      rcases hor with ⟨u, hu⟩ | ⟨u, hu⟩
      · refine ⟨u.length, ?_⟩
        have hdrop : s.drop u.length = a := by
          rw [← hu]
          exact List.drop_left u a
        rw [pgMatch_eq, hdrop]
        exact dollarAlt_isSome ha (Or.inl rfl)
      · refine ⟨u.length, ?_⟩
        have hdrop : s.drop u.length = a ++ ['\n'] := by
          rw [← hu]
          exact List.drop_left u (a ++ ['\n'])
        rw [pgMatch_eq, hdrop]
        exact dollarAlt_isSome ha (Or.inr rfl)
    obtain ⟨j, hj⟩ := hexists
    cases h : suffixScanM pgMatch s with
    | none => exact absurd (suffixScanM_none_ok h j) hj
    | some r =>
      obtain ⟨i, m⟩ := r
      have hok := suffixScanM_some_ok h
      have hile := suffixScanM_some_le h
      have hmle : m ≤ s.length - i := by
        have := pgMatch_le hok
        rwa [List.length_drop] at this
      have hm1 : 1 ≤ m := by
        rw [pgMatch_eq] at hok
        obtain ⟨a', ha', hm', hc'⟩ := dollarAlt_eq_some hok
        have hne' : a' ≠ [] := (by decide : ∀ x ∈ pgAlts, x ≠ []) a' ha'
        have hl0 : a'.length ≠ 0 := by
          simpa [List.length_eq_zero] using hne'
        omega
      rw [show pgFind = endFindBy pgMatch from rfl, sFun_endFindBy_some [] h]
      have hne2 : s ≠ s.take i ++ [] ++ s.drop (i + m) := by
        intro hcontra
        have hl2 := congrArg List.length hcontra
        have hT := List.length_take_le i s
        rw [List.append_nil, List.length_append, List.length_drop] at hl2
        omega
      rw [show (s == s.take i ++ [] ++ s.drop (i + m)) = false from
        beq_eq_false_iff_ne.mpr hne2]
      rfl

end StemmerUk
